import Mathlib

/-!
Verification development for the patch document model of git-crecord
(`git_crecord/crpatch.py` and `git_crecord/chunk_selector.py`).

Byte strings are modelled as lists of natural numbers (one per byte);
a "line" is such a list, normally ending in byte 10. Python `int`
arithmetic is modelled with `Int` where values can go negative, and with
`Nat` where the source only ever adds non-negative quantities.
-/

namespace GitCrecord

instance {ε α : Type} [DecidableEq ε] [DecidableEq α] : DecidableEq (Except ε α)
  | .ok a, .ok b => if h : a = b then .isTrue (by rw [h]) else .isFalse (by simp [h])
  | .ok _, .error _ => .isFalse (by simp)
  | .error _, .ok _ => .isFalse (by simp)
  | .error e, .error f => if h : e = f then .isTrue (by rw [h]) else .isFalse (by simp [h])

/-- A raw byte string (each element is one byte, 0..255). -/
abbrev Line := List Nat

/-- ASCII bytes of a literal string (all literals used here are ASCII). -/
def strB (s : String) : Line := s.data.map Char.toNat

/-- Decimal digits of a natural number, as ASCII bytes. -/
def natToBytes (n : Nat) : Line := (Nat.toDigits 10 n).map Char.toNat

/-- Python `%d` formatting of a (possibly negative) integer, as ASCII bytes. -/
def intToBytes : Int → Line
  | .ofNat n => natToBytes n
  | .negSucc n => 45 :: natToBytes (n + 1)

/-- `pre` is a prefix of `l` (Python `bytes.startswith`). -/
def startsWithB : Line → Line → Bool
  | [], _ => true
  | _ :: _, [] => false
  | a :: as, b :: bs => a = b && startsWithB as bs

/-- The bytes of `b'\\ No newline at end of file\n'`. -/
def noNewlineMarker : Line := strB "\\ No newline at end of file\n"

/-- One changed line of a hunk (`HunkLine` in crpatch.py): the raw line
text including its leading marker byte, plus the applied flag. -/
structure HunkLine where
  linetext : Line
  applied : Bool
deriving DecidableEq

/-- `HunkLine.__bytes__`: an applied line is emitted as-is, an un-applied
line with its marker byte replaced by a space. -/
def hunkLineBytes (l : HunkLine) : Line :=
  if l.applied then l.linetext else 32 :: l.linetext.tail

/-- A hunk (`Hunk` in crpatch.py). The `header` back-reference is not
carried (it is only used for sibling navigation, modelled separately). -/
structure Hunk where
  fromline : Int
  toline : Int
  proc : Line
  before : List Line
  after : List Line
  changedlines : List HunkLine
  added : Nat
  removed : Nat
  originalremoved : Nat
  applied : Bool
  partialFlag : Bool
  folded : Bool
deriving DecidableEq

/-- `Hunk.countchanges`: `(n+, n-)` counted over currently applied lines,
where the diff op of a line is its first byte. -/
def countchanges (ls : List HunkLine) : Nat × Nat :=
  ((ls.filter (fun l => l.applied && l.linetext.head? == some 43)).length,
   (ls.filter (fun l => l.applied && l.linetext.head? == some 45)).length)

/-- `Hunk.__init__` (with all lines applied; `trimcontext` is a no-op in
the source because of its `if False` guard). -/
def mkHunk (fromline toline : Int) (proc : Line)
    (before : List Line) (hunklines : List Line) (after : List Line) : Hunk :=
  let changed := hunklines.map (fun t => { linetext := t, applied := true })
  let c := countchanges changed
  { fromline := fromline, toline := toline, proc := proc,
    before := before, after := after, changedlines := changed,
    added := c.1, removed := c.2, originalremoved := c.2,
    applied := true, partialFlag := false, folded := true }

/-- The context length computed inside `Hunk.getfromtoline`:
`len(before) + len(after) + (originalremoved - removed)`, minus one when
`after` ends with the no-newline marker. -/
def contextLenOf (h : Hunk) : Int :=
  let removedconvertedtocontext : Int := (h.originalremoved : Int) - (h.removed : Int)
  let contextlen : Int := (h.before.length : Int) + (h.after.length : Int) +
    removedconvertedtocontext
  if h.after ≠ [] ∧ h.after.getLast? = some noNewlineMarker then contextlen - 1
  else contextlen

/-- The four numbers emitted in the `@@` line by `Hunk.getfromtoline`:
`(fromline, fromlen, toline, tolen)` after the degenerate-hunk
adjustment. -/
def rangeNumbers (h : Hunk) : Int × Int × Int × Int :=
  let contextlen := contextLenOf h
  let fromlen := contextlen + (h.removed : Int)
  let tolen := contextlen + (h.added : Int)
  let fromline := if fromlen = 0 ∧ h.fromline > 0 then h.fromline - 1 else h.fromline
  let toline := if tolen = 0 ∧ h.toline > 0 then h.toline - 1 else h.toline
  (fromline, fromlen, toline, tolen)

/-- Formatting of `b'@@ -%d,%d +%d,%d @@%b\n'` where the last argument is
`proc and (b' ' + proc)`. -/
def fmtRange (n : Int × Int × Int × Int) (proc : Line) : Line :=
  strB "@@ -" ++ intToBytes n.1 ++ [44] ++ intToBytes n.2.1 ++
  strB " +" ++ intToBytes n.2.2.1 ++ [44] ++ intToBytes n.2.2.2 ++
  strB " @@" ++ (if proc = [] then [] else 32 :: proc) ++ [10]

/-- `Hunk.getfromtoline`. -/
def getfromtoline (h : Hunk) : Line := fmtRange (rangeNumbers h) h.proc

/-- The mutation `self.added, self.removed = self.countchanges()` done at
the start of `Hunk.write`. -/
def updatecounts (h : Hunk) : Hunk :=
  let c := countchanges h.changedlines
  { h with added := c.1, removed := c.2 }

/-- `Hunk.write`: recompute the counts, then emit the `@@` line, the
leading context, every changed line via `HunkLine.__bytes__`, and the
trailing context. -/
def writeHunk (h : Hunk) : Line :=
  let h := updatecounts h
  getfromtoline h ++ h.before.flatten ++
    (h.changedlines.map hunkLineBytes).flatten ++ h.after.flatten

/-- A file header (`Header` in crpatch.py) together with its hunks. -/
structure Header where
  header : List Line
  hunks : List Hunk
  applied : Bool
  partialFlag : Bool
  folded : Bool
deriving DecidableEq

/-- A freshly parsed header: applied, not partial, folded. -/
def mkHeader (lines : List Line) : Header :=
  { header := lines, hunks := [], applied := true, partialFlag := false, folded := true }

/-- `Header.write`: the raw header lines, verbatim. -/
def writeHeader (g : Header) : Line := g.header.flatten

/-- `Header.special`: some header line starts with one of the prefixes of
`special_re` (each alternative is followed by a space in the pattern). -/
def specialHdr (g : Header) : Bool :=
  g.header.any fun h =>
    startsWithB (strB "GIT binary patch ") h || startsWithB (strB "new ") h ||
    startsWithB (strB "deleted ") h || startsWithB (strB "copy ") h ||
    startsWithB (strB "rename ") h

/-- `Header.binary`: some header line starts with `GIT binary patch`. -/
def binaryHdr (g : Header) : Bool :=
  g.header.any fun h => startsWithB (strB "GIT binary patch") h

/-- An element of the interleaved `PatchRoot` stream: a header or a hunk. -/
inductive Chunk where
  | hd (g : Header)
  | hk (h : Hunk)
deriving DecidableEq

/-- The interleaved stream of the parse result (each header followed by
its hunks, in order), as built by the parser's `headers` list. -/
def streamOf (gs : List Header) : List Chunk :=
  gs.foldr (fun g acc => Chunk.hd g :: (g.hunks.map Chunk.hk ++ acc)) []

/-- The inner loop of `filterpatch` over one header's hunks, carrying
`fixoffset`: an applied hunk is emitted (with `toline` shifted when the
accumulated offset is non-zero), an un-applied hunk adds
`removed - added` to the offset. -/
def walkHunks : List Hunk → Int → List Chunk
  | [], _ => []
  | h :: hs, fixoffset =>
      if h.applied then
        Chunk.hk { h with toline := if fixoffset ≠ 0 then h.toline + fixoffset else h.toline } ::
          walkHunks hs fixoffset
      else
        walkHunks hs (fixoffset + ((h.removed : Int) - (h.added : Int)))

/-- `filterpatch` (with the interactive selection pass already applied to
the flags): keep each applied header that is special, binary, or has at
least one applied hunk, followed by its applied hunks with corrected
`toline`. -/
def filterpatch (gs : List Header) : List Chunk :=
  if (streamOf gs).length = 0 then []
  else
    gs.foldr
      (fun g acc =>
        if g.applied &&
            (specialHdr g || binaryHdr g || (g.hunks.filter (fun h => h.applied)).length > 0)
        then Chunk.hd g :: (walkHunks g.hunks 0 ++ acc)
        else acc) []

/-- Serialization of one stream element (`Header.write` / `Hunk.write`). -/
def writeChunk : Chunk → Line
  | .hd g => writeHeader g
  | .hk h => writeHunk h

/-- Serialization of a whole stream, in order. -/
def serializeChunks (cs : List Chunk) : Line := (cs.map writeChunk).flatten

/-! ## The lexer (`scanpatch`) -/

/-- One event of the `scanpatch` stream. A `range` event keeps the raw
matched line (which the parser ignores) alongside the regex groups. -/
inductive Event where
  | file (lines : List Line)
  | context (lines : List Line)
  | hunk (lines : List Line)
  | range (rawline : Line) (fromstart : Nat) (fromend : Option Nat)
      (tostart : Nat) (toend : Option Nat) (proc : Line)
deriving DecidableEq

/-- Python `\s` for byte patterns: space, tab, LF, VT, FF, CR. -/
def isWS (b : Nat) : Bool := b = 32 || b = 9 || b = 10 || b = 11 || b = 12 || b = 13

/-- First whitespace-delimited token of a line (Python `line.split(None, 1)`,
first element), or `none` when the line is empty or all whitespace. -/
def firstToken (l : Line) : Option Line :=
  let t := (l.dropWhile isWS).takeWhile (fun b => !isWS b)
  if t = [] then none else some t

/-- `notheader` from the `file` branch of `scanpatch`: the first token is
missing, or is neither `---` nor `diff`. -/
def notheader (l : Line) : Bool :=
  match firstToken l with
  | none => true
  | some t => !(t == strB "---") && !(t == strB "diff")

/-- A decimal digit byte. -/
def isDigitB (b : Nat) : Bool := 48 ≤ b && b ≤ 57

/-- Greedy run of digit bytes at the front of a line, with the rest;
fails when there is no leading digit (regex `\d+`). -/
def takeDigits (l : Line) : Option (Nat × Line) :=
  let ds := l.takeWhile isDigitB
  if ds = [] then none
  else some (ds.foldl (fun a b => a * 10 + (b - 48)) 0, l.dropWhile isDigitB)

/-- Optional `,(\d+)` group: when the next byte is a comma it must be
followed by digits, otherwise the group is skipped. -/
def takeOptCommaDigits (l : Line) : Option (Option Nat × Line) :=
  match l with
  | 44 :: rest =>
      match takeDigits rest with
      | some (n, r) => some (some n, r)
      | none => none
  | _ => some (none, l)

/-- The trailing `\s*(.*)` of the range regex: strip leading whitespace,
then take everything up to (not including) a newline byte. -/
def procOf (l : Line) : Line := (l.dropWhile isWS).takeWhile (fun b => b ≠ 10)

/-- The `lines_re` regex `@@ -(\d+)(?:,(\d+))? \+(\d+)(?:,(\d+))? @@\s*(.*)`,
matched at the start of the line. -/
def parseRange (l : Line) : Option (Nat × Option Nat × Nat × Option Nat × Line) :=
  if startsWithB (strB "@@ -") l then
    match takeDigits (l.drop 4) with
    | none => none
    | some (d1, r1) =>
        match takeOptCommaDigits r1 with
        | none => none
        | some (d2, r2) =>
            if startsWithB (strB " +") r2 then
              match takeDigits (r2.drop 2) with
              | none => none
              | some (d3, r3) =>
                  match takeOptCommaDigits r3 with
                  | none => none
                  | some (d4, r4) =>
                      if startsWithB (strB " @@") r4 then
                        some (d1, d2, d3, d4, procOf (r4.drop 3))
                      else none
            else none
  else none

/-- `scanwhile`: greedily collect lines satisfying `p`; stop (leaving the
line in the rest) at the first non-matching line, and stop at an empty
line, which models the `b''` end-of-stream sentinel of `readline`. -/
def scanWhile (p : Line → Bool) : List Line → List Line × List Line
  | [] => ([], [])
  | l :: ls =>
      if l = [] then ([], l :: ls)
      else if p l then
        let r := scanWhile p ls
        (l :: r.1, r.2)
      else ([], l :: ls)

/-- The main loop of `scanpatch`, fuelled for structural recursion (the
fuel is set to more than the number of lines, which always suffices).
Returns the events produced before the end of input or before the first
unrecognized line, and that line when one was hit (the
`unknown patch content` error). -/
def scanLinesF : Nat → List Line → List Event × Option Line
  | 0, _ => ([], none)
  | _ + 1, [] => ([], none)
  | fuel + 1, l :: ls =>
      if l = [] then ([], none)
      else if startsWithB (strB "diff --git a/") l ||
              startsWithB (strB "diff --git \"a/") l then
        let s := scanWhile notheader ls
        let header := l :: s.1
        match s.2 with
        | [] => ([Event.file header], none)
        | f :: rest =>
            if startsWithB (strB "---") f then
              match rest with
              | [] => ([Event.file (header ++ [f, []])], none)
              | t :: rest' =>
                  let r := scanLinesF fuel rest'
                  (Event.file (header ++ [f, t]) :: r.1, r.2)
            else
              let r := scanLinesF fuel (f :: rest)
              (Event.file header :: r.1, r.2)
      else if l.head? = some 32 then
        let s := scanWhile (fun x => x.head? = some 32 || x.head? = some 92) ls
        let r := scanLinesF fuel s.2
        (Event.context (l :: s.1) :: r.1, r.2)
      else if l.head? = some 45 || l.head? = some 43 then
        let s := scanWhile (fun x => x.head? = some 45 || x.head? = some 43 || x.head? = some 92) ls
        let r := scanLinesF fuel s.2
        (Event.hunk (l :: s.1) :: r.1, r.2)
      else
        match parseRange l with
        | some (d1, d2, d3, d4, proc) =>
            let r := scanLinesF fuel ls
            (Event.range l d1 d2 d3 d4 proc :: r.1, r.2)
        | none => ([], some l)

/-- `scanpatch` over a list of lines. -/
def scanLines (ls : List Line) : List Event × Option Line :=
  scanLinesF (ls.length + 1) ls

/-- Split a byte stream into lines, each keeping its trailing newline
byte (the semantics of `readline`; a final piece without a newline is
kept, an empty final piece is not a line). -/
def splitLinesAux : List Nat → Line → List Line
  | [], acc => if acc = [] then [] else [acc.reverse]
  | b :: bs, acc =>
      if b = 10 then (10 :: acc).reverse :: splitLinesAux bs []
      else splitLinesAux bs (b :: acc)

/-- All lines of a byte stream. -/
def splitLines (bs : List Nat) : List Line := splitLinesAux bs []

/-! ## The parser state machine (`parsepatch`) -/

/-- Event kinds, also used as the parser's states (a state is named after
the event just processed; the initial state is `context`). -/
inductive EvKind where
  | file
  | context
  | hunk
  | range
deriving DecidableEq

/-- The kind of an event. -/
def kindOf : Event → EvKind
  | .file _ => .file
  | .context _ => .context
  | .hunk _ => .hunk
  | .range _ _ _ _ _ _ => .range

/-- Parse failures: the `unknown patch content` error of `scanpatch`
(carrying the offending line), the `unhandled transition` error of
`parsepatch` (carrying the state and event kind), and the crash of
`add_new_hunk` when no header exists yet (`self.header` unset, an
`AttributeError` in Python, distinct from `PatchError`). -/
inductive PErr where
  | unknownContent (l : Line)
  | transitionErr (s : EvKind) (e : EvKind)
  | noHeader
deriving DecidableEq

/-- The parser's mutable state: the running counters, the buffered
context/changed lines, and the headers built so far (each with its hunks;
the current header `self.header` is the last one). -/
structure ParserSt where
  fromline : Nat
  toline : Nat
  proc : Line
  context : List Line
  before : List Line
  hunk : List Line
  headers : List Header
deriving DecidableEq

/-- The initial parser state. -/
def initSt : ParserSt :=
  { fromline := 0, toline := 0, proc := [], context := [], before := [], hunk := [],
    headers := [] }

/-- Rewrite the last element of a list. -/
def updateLast (f : Header → Header) : List Header → List Header
  | [] => []
  | [g] => [f g]
  | g :: gs => g :: updateLast f gs

/-- `Parser.add_new_hunk`: build the hunk from the buffered data, append
it to the current header (and thereby to the stream), advance the
counters, and clear the buffers. Fails when no header was created yet. -/
def addNewHunk (st : ParserSt) : Except PErr ParserSt :=
  if st.headers = [] then .error .noHeader
  else
    let h := mkHunk (st.fromline : Int) (st.toline : Int) st.proc st.before st.hunk st.context
    .ok { st with
      headers := updateLast (fun g => { g with hunks := g.hunks ++ [h] }) st.headers,
      fromline := st.fromline + st.before.length + h.removed + st.context.length,
      toline := st.toline + st.before.length + h.added + st.context.length,
      before := [], hunk := [], context := [], proc := [] }

/-- `Parser.addrange`: store the range-line data. -/
def addrange (st : ParserSt) (fromstart tostart : Nat) (proc : Line) : ParserSt :=
  { st with fromline := fromstart, toline := tostart, proc := proc }

/-- `Parser.addcontext`: store the context block; if changed lines are
buffered, this completes a hunk. -/
def addcontextA (st : ParserSt) (ctx : List Line) : Except PErr ParserSt :=
  let st := { st with context := ctx }
  if st.hunk ≠ [] then addNewHunk st else .ok st

/-- `Parser.addhunk`: store the changed lines; the buffered context
becomes the preceding context. -/
def addhunkA (st : ParserSt) (lines : List Line) : ParserSt :=
  { st with hunk := lines, before := st.context, context := [] }

/-- `Parser.newfile`: flush any pending hunk, then append a fresh header. -/
def newfileA (st : ParserSt) (hdr : List Line) : Except PErr ParserSt :=
  (if st.hunk ≠ [] then addNewHunk st else .ok st).map fun st' =>
    { st' with headers := st'.headers ++ [mkHeader hdr] }

/-- `Parser.finished`: flush any pending hunk and return the stream. -/
def finishedA (st : ParserSt) : Except PErr (List Header) :=
  (if st.hunk ≠ [] then addNewHunk st else .ok st).map fun st' => st'.headers

/-- The transition table of `parsepatch`: whether a `(state, event)` pair
is handled (the action of a handled pair is always the canonical action
of the event's kind). -/
def transitions : EvKind → EvKind → Bool
  | .file, _ => true
  | .context, .context => false
  | .context, _ => true
  | .hunk, .hunk => false
  | .hunk, _ => true
  | .range, .context => true
  | .range, .hunk => true
  | .range, _ => false

/-- One step of the state machine: look the `(state, event-kind)` pair up
in the table and run the action, or fail with `unhandled transition`. -/
def pstep (s : EvKind) (st : ParserSt) (ev : Event) : Except PErr (EvKind × ParserSt) :=
  let k := kindOf ev
  if transitions s k then
    match ev with
    | .file hdr => (newfileA st hdr).map fun st' => (k, st')
    | .context ls => (addcontextA st ls).map fun st' => (k, st')
    | .hunk ls => .ok (k, addhunkA st ls)
    | .range _ fs _ ts _ proc => .ok (k, addrange st fs ts proc)
  else .error (.transitionErr s k)

/-- Run the state machine over an event list. -/
def runEvents (s : EvKind) (st : ParserSt) : List Event → Except PErr (EvKind × ParserSt)
  | [] => .ok (s, st)
  | ev :: evs =>
      match pstep s st ev with
      | .ok r => runEvents r.1 r.2 evs
      | .error e => .error e

/-- `parsepatch` over a list of lines: scan, run the machine over the
events produced (a parse error on an earlier event surfaces before a scan
error on a later line, matching the lazy generator), then finish. -/
def parseLines (ls : List Line) : Except PErr (List Header) :=
  let s := scanLines ls
  match runEvents .context initSt s.1 with
  | .error e => .error e
  | .ok r =>
      match s.2 with
      | some l => .error (.unknownContent l)
      | none => finishedA r.2

/-- `parsepatch` over a raw byte stream. -/
def parsepatch (bs : List Nat) : Except PErr (List Header) :=
  parseLines (splitLines bs)

/-! ## The header branch of `toggleapply` (chunk_selector.py) -/

/-- `toggleapply` on a `Header`: negate `applied`, clear the header's
partial flag, and propagate: when now applied, set every hunk and line
applied (hunk partial flags untouched); when now un-applied, clear every
hunk's applied and partial flags and every line's applied flag. -/
def toggleapplyHeader (item : Header) : Header :=
  let item := { item with applied := !item.applied, partialFlag := false }
  if item.applied then
    { item with
      hunks := item.hunks.map fun hnk =>
        { hnk with
          applied := true,
          changedlines := hnk.changedlines.map fun l => { l with applied := true } } }
  else
    { item with
      hunks := item.hunks.map fun hnk =>
        { hnk with
          applied := false, partialFlag := false,
          changedlines := hnk.changedlines.map fun l => { l with applied := false } } }

/-! ## Tree navigation (`PatchNode.nextitem` / `PatchNode.previtem`)

Navigation depends only on the shape of the tree (how many headers,
hunks per header, and lines per hunk) and the fold flags, so it is
modelled on a shape: nodes are addressed by their positional indices,
exactly as the source computes siblings by index in the owning list
(the interactive session wraps the headers in a fresh `PatchRoot`
containing only headers, so header siblings range over headers). -/

/-- Shape of a hunk: its fold flag and its number of changed lines
(lines are never folded; their flag is constantly false). -/
structure HunkS where
  folded : Bool
  lines : Nat
deriving DecidableEq

/-- Shape of a header: its fold flag and its hunks. -/
structure HeaderS where
  folded : Bool
  hunks : List HunkS
deriving DecidableEq

/-- Shape of a patch: the list of headers. -/
abbrev PatchS := List HeaderS

/-- Address of a node in a patch shape. -/
inductive Addr where
  | hdr (i : Nat)
  | hnk (i j : Nat)
  | lin (i j k : Nat)
deriving DecidableEq

/-- The address denotes an existing node. -/
def validA (p : PatchS) : Addr → Bool
  | .hdr i => i < p.length
  | .hnk i j =>
      match p[i]? with
      | some h => j < h.hunks.length
      | none => false
  | .lin i j k =>
      match p[i]? with
      | some h =>
          match h.hunks[j]? with
          | some hk => k < hk.lines
          | none => false
      | none => false

/-- The node's `folded` flag. -/
def foldedA (p : PatchS) : Addr → Bool
  | .hdr i => ((p[i]?).map (fun h => h.folded)).getD false
  | .hnk i j => (((p[i]?).bind (fun h => h.hunks[j]?)).map (fun k => k.folded)).getD false
  | .lin _ _ _ => false

/-- `nextsibling`: the next node of the same kind in the owning list. -/
def nextsibA (p : PatchS) : Addr → Option Addr
  | .hdr i => if i + 1 < p.length then some (.hdr (i + 1)) else none
  | .hnk i j =>
      match p[i]? with
      | some h => if j + 1 < h.hunks.length then some (.hnk i (j + 1)) else none
      | none => none
  | .lin i j k =>
      match (p[i]?).bind (fun h => h.hunks[j]?) with
      | some hk => if k + 1 < hk.lines then some (.lin i j (k + 1)) else none
      | none => none

/-- `prevsibling`: the previous node of the same kind in the owning list. -/
def prevsibA : Addr → Option Addr
  | .hdr i => if 0 < i then some (.hdr (i - 1)) else none
  | .hnk i j => if 0 < j then some (.hnk i (j - 1)) else none
  | .lin i j k => if 0 < k then some (.lin i j (k - 1)) else none

/-- `parentitem`: a header has no parent. -/
def parentA : Addr → Option Addr
  | .hdr _ => none
  | .hnk i _ => some (.hdr i)
  | .lin i j _ => some (.hnk i j)

/-- `firstchild`. -/
def firstchildA (p : PatchS) : Addr → Option Addr
  | .hdr i =>
      match p[i]? with
      | some h => if 0 < h.hunks.length then some (.hnk i 0) else none
      | none => none
  | .hnk i j =>
      match (p[i]?).bind (fun h => h.hunks[j]?) with
      | some hk => if 0 < hk.lines then some (.lin i j 0) else none
      | none => none
  | .lin _ _ _ => none

/-- `lastchild`. -/
def lastchildA (p : PatchS) : Addr → Option Addr
  | .hdr i =>
      match p[i]? with
      | some h => if 0 < h.hunks.length then some (.hnk i (h.hunks.length - 1)) else none
      | none => none
  | .hnk i j =>
      match (p[i]?).bind (fun h => h.hunks[j]?) with
      | some hk => if 0 < hk.lines then some (.lin i j (hk.lines - 1)) else none
      | none => none
  | .lin _ _ _ => none

/-- `PatchNode.nextitem`: with `skipfolded` set and a folded node, next
sibling (or the parent's); otherwise first child, else next sibling,
else the parent's next sibling, else the grandparent's. -/
def nextitemA (p : PatchS) (skipfolded : Bool) (a : Addr) : Option Addr :=
  if skipfolded && foldedA p a then
    match nextsibA p a with
    | some n => some n
    | none =>
        match parentA a with
        | some par => nextsibA p par
        | none => none
  else
    match firstchildA p a with
    | some c => some c
    | none =>
        match nextsibA p a with
        | some s => some s
        | none =>
            match parentA a with
            | some par =>
                match nextsibA p par with
                | some s => some s
                | none =>
                    match parentA par with
                    | some gp => nextsibA p gp
                    | none => none
            | none => none

/-- `PatchNode.previtem`: the previous sibling's last unfolded
descendant (two levels at most), else the previous sibling, else the
parent. -/
def previtemA (p : PatchS) (a : Addr) : Option Addr :=
  match prevsibA a with
  | some ps =>
      match lastchildA p ps with
      | some plc =>
          if foldedA p ps then some ps
          else
            match lastchildA p plc with
            | some plclc => if foldedA p plc then some plc else some plclc
            | none => some plc
      | none => some ps
  | none => parentA a

/-- Every fold flag in the shape is false. -/
def allUnfolded (p : PatchS) : Bool :=
  p.all fun h => !h.folded && h.hunks.all fun hk => !hk.folded

/-! ## Claim-side definitions and theorems -/

/-- The `@@`-header numbers as the specification describes them: `added`
and `removed` recomputed from the currently-applied line flags,
`removed_converted_to_context = original_removed - removed`,
`context_len = len(before) + len(after) + removed_converted_to_context`
minus one when the last line of `after` is the no-newline marker,
`from_len = context_len + removed`, `to_len = context_len + added`, and
the degenerate-hunk decrements of the start lines. -/
def specRangeNumbers (h : Hunk) : Int × Int × Int × Int :=
  let added := (countchanges h.changedlines).1
  let removed := (countchanges h.changedlines).2
  let removedConvToCtx : Int := (h.originalremoved : Int) - (removed : Int)
  let contextLen : Int := (h.before.length : Int) + (h.after.length : Int) + removedConvToCtx -
    (if h.after.getLast? = some noNewlineMarker then 1 else 0)
  let fromLen := contextLen + (removed : Int)
  let toLen := contextLen + (added : Int)
  ((if fromLen = 0 ∧ h.fromline > 0 then h.fromline - 1 else h.fromline), fromLen,
   (if toLen = 0 ∧ h.toline > 0 then h.toline - 1 else h.toline), toLen)

/-- C1. Serializing a hunk emits an `@@` header whose four numbers are
exactly the ones computed from the current selection state by the
specification's formulas (followed by the hunk body). -/
theorem hunk_write_emits_spec_range (h : Hunk) :
    writeHunk h = fmtRange (specRangeNumbers h) h.proc ++ h.before.flatten ++
      (h.changedlines.map hunkLineBytes).flatten ++ h.after.flatten := by
  have hr : rangeNumbers (updatecounts h) = specRangeNumbers h := by
    by_cases hm : h.after.getLast? = some noNewlineMarker
    · have hne : h.after ≠ [] := by
        intro he
        rw [he] at hm
        simp at hm
      simp [rangeNumbers, specRangeNumbers, contextLenOf, updatecounts, hm, hne]
    · simp [rangeNumbers, specRangeNumbers, contextLenOf, updatecounts, hm]
  show fmtRange (rangeNumbers (updatecounts h)) (updatecounts h).proc ++
      (updatecounts h).before.flatten ++
      ((updatecounts h).changedlines.map hunkLineBytes).flatten ++
      (updatecounts h).after.flatten = _
  rw [hr]
  simp [updatecounts]

/-- The hunk of claim C2's failing input: one context line before, and a
single changed line `+x` that is deselected (cached counts as of parse
time). -/
def c2hunk : Hunk :=
  { fromline := 1, toline := 1, proc := [],
    before := [strB " a\n"], after := [],
    changedlines := [{ linetext := strB "+x\n", applied := false }],
    added := 1, removed := 0, originalremoved := 0,
    applied := true, partialFlag := true, folded := false }

/-- C2 (failing input evaluated). Serializing a hunk whose only `+` line
is deselected emits that line as a context line ` x` — it is not absent
from the output as claimed — while `to_len` indeed does not count it. -/
theorem deselected_addition_is_emitted :
    writeHunk c2hunk = strB "@@ -1,1 +1,1 @@\n a\n x\n" ∧
    (countchanges c2hunk.changedlines).1 = 0 ∧
    List.IsInfix (strB " x\n") (writeHunk c2hunk) := by
  refine ⟨by decide, by decide, ?_⟩
  refine ⟨strB "@@ -1,1 +1,1 @@\n a\n", [], ?_⟩
  decide

/-- C8. A non-empty line reached at the top level of `scanpatch` that
starts none of the recognized shapes and fails the `@@` range pattern
stops the scan with the `unknown patch content` error carrying that line,
and parsing such input fails with that error. -/
theorem scan_unknown_patch_content (l : Line) (rest : List Line)
    (hne : l ≠ [])
    (h1 : startsWithB (strB "diff --git a/") l = false)
    (h2 : startsWithB (strB "diff --git \"a/") l = false)
    (h3 : l.head? ≠ some 32)
    (h4 : l.head? ≠ some 45)
    (h5 : l.head? ≠ some 43)
    (h6 : parseRange l = none) :
    scanLines (l :: rest) = ([], some l) ∧
    parseLines (l :: rest) = .error (.unknownContent l) := by
  have hs : scanLines (l :: rest) = ([], some l) := by
    show scanLinesF (rest.length + 1 + 1) (l :: rest) = _
    simp [scanLinesF, hne, h1, h2, h3, h4, h5, h6]
  refine ⟨hs, ?_⟩
  simp [parseLines, hs, runEvents]

/-- Witness for C8 at the concrete line `???`. -/
theorem scan_unknown_patch_content_witness :
    scanLines [strB "???"] = ([], some (strB "???")) ∧
    parseLines [strB "???"] = .error (.unknownContent (strB "???")) :=
  scan_unknown_patch_content (strB "???") [] (by decide) (by decide) (by decide)
    (by decide) (by decide) (by decide) (by decide)

/-- True exactly on an `unhandled transition` parse result. -/
def isTransitionErr : Except PErr (List Header) → Bool
  | .error (.transitionErr _ _) => true
  | _ => false

/-- Counterexample for C9: the input `-a\n` produces a `hunk` event
before any `file` event, yet parsing does not fail with the `unhandled
transition` error — the pair (`context`, `hunk`) is in the table, and the
failure is the missing-header crash when the hunk is finalized. -/
theorem hunk_before_file_not_transition_error :
    parsepatch (strB "-a\n") = .error .noHeader ∧
    isTransitionErr (parsepatch (strB "-a\n")) = false := by
  constructor
  · decide
  · decide

/-- C9 (amended). Whenever the `(state, event-kind)` pair is absent from
the transition table, the step fails with the `unhandled transition`
error carrying that pair; the minimal whole-input instance is a `context`
event arriving in the initial `context` state. -/
theorem unhandled_transition_error :
    (∀ (s : EvKind) (st : ParserSt) (ev : Event), transitions s (kindOf ev) = false →
      pstep s st ev = .error (.transitionErr s (kindOf ev))) ∧
    parseLines [strB " x\n"] = .error (.transitionErr .context .context) := by
  constructor
  · intro s st ev h
    simp [pstep, h]
  · decide

/-- Witness for C9's amended theorem at a concrete missing pair. -/
theorem unhandled_transition_error_witness :
    pstep .range initSt (.file []) = .error (.transitionErr .range .file) :=
  unhandled_transition_error.1 .range initSt (.file []) (by decide)

/-- The failing input for claim C5: a well-formed diff whose two hunks
have no context lines between the first hunk's changed lines and the
second `@@` line (as produced with zero context). -/
def c5input : List Nat :=
  strB "diff --git a/f b/f\n--- a/f\n+++ b/f\n@@ -1,2 +1,2 @@\n-a\n+b\n@@ -9,2 +9,2 @@\n-c\n+d\n"

/-- The bytes written for the fully-applied filtered parse of `c5input`. -/
def c5output : Line :=
  match parsepatch c5input with
  | .ok gs => serializeChunks (filterpatch gs)
  | .error _ => []

/-- C5 (failing input evaluated). Parsing `c5input` succeeds and leaves
every node applied, yet serializing the filtered result loses the first
hunk's body entirely: `addrange` does not flush a pending hunk, so the
second `@@` line overwrites the buffered changed lines `-a`/`+b`. -/
theorem roundtrip_loses_adjacent_hunk :
    (parsepatch c5input).toOption.isSome = true ∧
    List.IsInfix (strB "-a\n") c5input ∧
    c5output = strB "diff --git a/f b/f\n--- a/f\n+++ b/f\n@@ -9,1 +9,1 @@\n-c\n+d\n" ∧
    ¬ List.IsInfix (strB "-a\n") c5output := by
  refine ⟨by decide, ⟨strB "diff --git a/f b/f\n--- a/f\n+++ b/f\n@@ -1,2 +1,2 @@\n",
    strB "+b\n@@ -9,2 +9,2 @@\n-c\n+d\n", by decide⟩, by decide, by decide⟩

/-- Count of raw lines whose first byte is `-`. -/
def countMinusRaw (ls : List Line) : Nat :=
  (ls.filter fun l => l.head? == some 45).length

/-- Count of raw lines whose first byte is `+`. -/
def countPlusRaw (ls : List Line) : Nat :=
  (ls.filter fun l => l.head? == some 43).length

/-- The hunks occurring in a stream, in order. -/
def streamHunks (cs : List Chunk) : List Hunk :=
  cs.filterMap fun c =>
    match c with
    | .hk h => some h
    | .hd _ => none

theorem streamOf_cons (g : Header) (gs : List Header) :
    streamOf (g :: gs) = Chunk.hd g :: (g.hunks.map Chunk.hk ++ streamOf gs) := rfl

theorem streamHunks_append (cs ds : List Chunk) :
    streamHunks (cs ++ ds) = streamHunks cs ++ streamHunks ds := by
  simp [streamHunks]

theorem streamHunks_streamOf (gs : List Header) :
    streamHunks (streamOf gs) = (gs.map fun g => g.hunks).flatten := by
  induction gs with
  | nil => rfl
  | cons g gs ih =>
      rw [streamOf_cons]
      have h1 : streamHunks (Chunk.hd g :: (g.hunks.map Chunk.hk ++ streamOf gs)) =
          streamHunks (g.hunks.map Chunk.hk) ++ streamHunks (streamOf gs) := by
        simp [streamHunks]
      rw [h1, ih]
      have h2 : streamHunks (g.hunks.map Chunk.hk) = g.hunks := by
        simp [streamHunks, List.filterMap_map, Function.comp_def]
      rw [h2]
      simp

theorem updateLast_header_map (h : Hunk) (gs : List Header) :
    (updateLast (fun g => { g with hunks := g.hunks ++ [h] }) gs).map (fun g => g.header) =
      gs.map fun g => g.header := by
  induction gs with
  | nil => rfl
  | cons g gs ih =>
      cases gs with
      | nil => simp [updateLast]
      | cons g' gs' =>
          simp only [updateLast, List.map_cons]
          rw [show (updateLast (fun g => { g with hunks := g.hunks ++ [h] })
            (g' :: gs')).map (fun g => g.header) = (g' :: gs').map (fun g => g.header) from ih]
          simp

theorem updateLast_hunks_flatten (h : Hunk) (gs : List Header) (hne : gs ≠ []) :
    ((updateLast (fun g => { g with hunks := g.hunks ++ [h] }) gs).map (fun g => g.hunks)).flatten =
      ((gs.map fun g => g.hunks).flatten) ++ [h] := by
  induction gs with
  | nil => exact absurd rfl hne
  | cons g gs ih =>
      cases gs with
      | nil => simp [updateLast]
      | cons g' gs' =>
          simp only [updateLast, List.map_cons, List.flatten_cons]
          rw [show ((updateLast (fun g => { g with hunks := g.hunks ++ [h] })
            (g' :: gs')).map (fun g => g.hunks)).flatten =
            (((g' :: gs').map fun g => g.hunks).flatten) ++ [h] from ih (by simp)]
          simp

theorem updateLast_getLast (f : Header → Header) (gs : List Header) (hne : gs ≠ []) :
    (updateLast f gs).getLast? = (gs.getLast?).map f := by
  induction gs with
  | nil => exact absurd rfl hne
  | cons g gs ih =>
      cases gs with
      | nil => simp [updateLast]
      | cons g' gs' =>
          have h1 : updateLast f (g :: g' :: gs') = g :: updateLast f (g' :: gs') := rfl
          rw [h1]
          cases gs' with
          | nil =>
              show (g :: [f g']).getLast? = ((g :: [g']).getLast?).map f
              simp
          | cons a b =>
              have h2 : updateLast f (g' :: a :: b) = g' :: updateLast f (a :: b) := rfl
              rw [h2, List.getLast?_cons_cons, ← h2, ih (by simp)]
              simp [List.getLast?_cons_cons]

theorem mkHunk_removed (fromline toline : Int) (proc : Line)
    (before hunklines after : List Line) :
    (mkHunk fromline toline proc before hunklines after).removed = countMinusRaw hunklines := by
  simp [mkHunk, countchanges, countMinusRaw, List.filter_map, Function.comp_def]

theorem mkHunk_added (fromline toline : Int) (proc : Line)
    (before hunklines after : List Line) :
    (mkHunk fromline toline proc before hunklines after).added = countPlusRaw hunklines := by
  simp [mkHunk, countchanges, countPlusRaw, List.filter_map, Function.comp_def]

/-- C6. When the parser finalizes a hunk (a header exists), it succeeds,
appends the new hunk to the current (last) header and to the end of the
running stream, and advances the counters by
`len(before) + removed + len(after)` and `len(before) + added + len(after)`
respectively, where the new hunk's `removed`/`added` are the counts of
`-`/`+` lines among the buffered changed lines. -/
theorem add_new_hunk_spec (st : ParserSt) (hne : st.headers ≠ []) :
    ∃ st', addNewHunk st = .ok st' ∧
      st'.fromline = st.fromline + st.before.length + countMinusRaw st.hunk + st.context.length ∧
      st'.toline = st.toline + st.before.length + countPlusRaw st.hunk + st.context.length ∧
      st'.headers.map (fun g => g.header) = st.headers.map (fun g => g.header) ∧
      streamHunks (streamOf st'.headers) = streamHunks (streamOf st.headers) ++
        [mkHunk (st.fromline : Int) (st.toline : Int) st.proc st.before st.hunk st.context] ∧
      (st'.headers.getLast?).map (fun g => g.hunks) =
        (st.headers.getLast?).map (fun g => g.hunks ++
          [mkHunk (st.fromline : Int) (st.toline : Int) st.proc st.before st.hunk st.context]) := by
  refine ⟨_, by rw [addNewHunk, if_neg hne], ?_, ?_, ?_, ?_, ?_⟩
  · simp [mkHunk_removed]
  · simp [mkHunk_added]
  · exact updateLast_header_map _ st.headers
  · rw [streamHunks_streamOf, streamHunks_streamOf]
    exact updateLast_hunks_flatten _ st.headers hne
  · rw [updateLast_getLast _ st.headers hne]
    cases hg : st.headers.getLast? with
    | none => rfl
    | some g => rfl

/-- A concrete parser state with one header, buffered context on both
sides, and two buffered changed lines. -/
def c6st : ParserSt :=
  { fromline := 1, toline := 1, proc := [],
    context := [strB " z\n"], before := [strB " y\n"],
    hunk := [strB "-m\n", strB "+n\n"],
    headers := [mkHeader [strB "diff --git a/f b/f\n"]] }

/-- Witness for C6 at a concrete parser state. -/
theorem add_new_hunk_spec_witness :
    ∃ st', addNewHunk c6st = .ok st' ∧
      st'.fromline = c6st.fromline + c6st.before.length + countMinusRaw c6st.hunk +
        c6st.context.length ∧
      st'.toline = c6st.toline + c6st.before.length + countPlusRaw c6st.hunk +
        c6st.context.length ∧
      st'.headers.map (fun g => g.header) = c6st.headers.map (fun g => g.header) ∧
      streamHunks (streamOf st'.headers) = streamHunks (streamOf c6st.headers) ++
        [mkHunk (c6st.fromline : Int) (c6st.toline : Int) c6st.proc c6st.before
          c6st.hunk c6st.context] ∧
      (st'.headers.getLast?).map (fun g => g.hunks) =
        (c6st.headers.getLast?).map (fun g => g.hunks ++
          [mkHunk (c6st.fromline : Int) (c6st.toline : Int) c6st.proc c6st.before
            c6st.hunk c6st.context]) :=
  add_new_hunk_spec c6st (by decide)

/-- A non-special header, currently un-applied, whose hunk still has its
partial flag set. -/
def c7hdr : Header :=
  { header := [strB "diff --git a/f b/f\n"],
    hunks := [{ fromline := 1, toline := 1, proc := [], before := [], after := [],
                changedlines := [{ linetext := strB "+x\n", applied := true }],
                added := 1, removed := 0, originalremoved := 0,
                applied := true, partialFlag := true, folded := false }],
    applied := false, partialFlag := true, folded := false }

/-- Counterexample for C7: toggling a non-special header to applied does
not set the descendant hunk's partial flag to false — the applied branch
of `toggleapply` leaves hunk partial flags untouched. -/
theorem toggle_header_keeps_hunk_partial :
    specialHdr c7hdr = false ∧
    (toggleapplyHeader c7hdr).applied = true ∧
    (toggleapplyHeader c7hdr).hunks.map (fun h => h.partialFlag) = [true] := by
  refine ⟨by decide, by decide, by decide⟩

/-- C7 (amended). Toggling a non-special header's applied flag negates it
and clears the header's own partial flag; if the result is applied, every
descendant hunk and line is set to applied, with hunk partial flags left
unchanged; if the result is un-applied, every descendant hunk is set to
applied = false and partial = false and every descendant line to
applied = false. -/
theorem toggle_header_spec (H : Header) (_hs : specialHdr H = false) :
    (toggleapplyHeader H).applied = !H.applied ∧
    (toggleapplyHeader H).partialFlag = false ∧
    (H.applied = false →
      (toggleapplyHeader H).hunks.map
          (fun h => (h.applied, h.changedlines.map (fun l => l.applied))) =
        H.hunks.map (fun h => (true, h.changedlines.map fun _ => true)) ∧
      (toggleapplyHeader H).hunks.map (fun h => h.partialFlag) =
        H.hunks.map (fun h => h.partialFlag)) ∧
    (H.applied = true →
      (toggleapplyHeader H).hunks.map
          (fun h => (h.applied, h.partialFlag, h.changedlines.map (fun l => l.applied))) =
        H.hunks.map (fun h => (false, false, h.changedlines.map fun _ => false))) := by
  cases ha : H.applied <;>
    simp [toggleapplyHeader, ha, List.map_map, Function.comp_def]

/-- Witness for C7's amended theorem at a concrete header. -/
theorem toggle_header_spec_witness :
    (toggleapplyHeader c7hdr).applied = !c7hdr.applied ∧
    (toggleapplyHeader c7hdr).partialFlag = false :=
  ⟨(toggle_header_spec c7hdr (by decide)).1, (toggle_header_spec c7hdr (by decide)).2.1⟩

/-- Re-select line `i` of a hunk (identity when out of range). -/
def setLineApplied (h : Hunk) (i : Nat) : Hunk :=
  match h.changedlines.get? i with
  | some l => { h with changedlines := h.changedlines.set i { l with applied := true } }
  | none => h

theorem set_applied_minus_count (ls : List HunkLine) (i : Nat) (hi : i < ls.length)
    (hap : ls[i].applied = false) (hop : ls[i].linetext.head? = some 45) :
    ((ls.set i { ls[i] with applied := true }).filter
        (fun l => l.applied && l.linetext.head? == some 45)).length =
      (ls.filter (fun l => l.applied && l.linetext.head? == some 45)).length + 1 := by
  induction ls generalizing i with
  | nil => simp at hi
  | cons a tl ih =>
      cases i with
      | zero =>
          simp only [List.getElem_cons_zero] at hap hop
          simp [List.set, List.filter_cons, hap, hop]
      | succ n =>
          simp only [List.getElem_cons_succ] at hap hop
          have hn : n < tl.length := by simpa using hi
          simp only [List.set, List.getElem_cons_succ, List.filter_cons]
          by_cases hpa : (a.applied && a.linetext.head? == some 45) = true <;>
            simp [hpa, ih n hn hap hop, Nat.add_assoc, Nat.add_comm]

theorem set_applied_plus_count (ls : List HunkLine) (i : Nat) (hi : i < ls.length)
    (hap : ls[i].applied = false) (hop : ls[i].linetext.head? = some 45) :
    ((ls.set i { ls[i] with applied := true }).filter
        (fun l => l.applied && l.linetext.head? == some 43)).length =
      (ls.filter (fun l => l.applied && l.linetext.head? == some 43)).length := by
  induction ls generalizing i with
  | nil => simp at hi
  | cons a tl ih =>
      cases i with
      | zero =>
          simp only [List.getElem_cons_zero] at hap hop
          simp [List.set, List.filter_cons, hap, hop]
      | succ n =>
          simp only [List.getElem_cons_succ] at hap hop
          have hn : n < tl.length := by simpa using hi
          simp only [List.set, List.getElem_cons_succ, List.filter_cons]
          by_cases hpa : (a.applied && a.linetext.head? == some 43) = true <;>
            simp [hpa, ih n hn hap hop]

/-- C3. A deselected `-` line of a hunk is emitted with its marker
replaced by a leading space at its position in the body, it counts toward
`from_len` via the context length (re-selecting the line increases
`removed` by one, decreases the context length by one, and leaves
`from_len` unchanged), and it is not counted in `removed`. -/
theorem deselected_deletion_demoted (h : Hunk) (i : Nat)
    (hi : i < h.changedlines.length)
    (hap : h.changedlines[i].applied = false)
    (hop : h.changedlines[i].linetext.head? = some 45) :
    writeHunk h = getfromtoline (updatecounts h) ++ h.before.flatten ++
      ((h.changedlines.take i).map hunkLineBytes).flatten ++
      (32 :: h.changedlines[i].linetext.tail) ++
      ((h.changedlines.drop (i + 1)).map hunkLineBytes).flatten ++ h.after.flatten ∧
    (updatecounts (setLineApplied h i)).removed = (updatecounts h).removed + 1 ∧
    contextLenOf (updatecounts h) = contextLenOf (updatecounts (setLineApplied h i)) + 1 ∧
    (rangeNumbers (updatecounts h)).2.1 = (rangeNumbers (updatecounts (setLineApplied h i))).2.1 := by
  have hset : setLineApplied h i =
      { h with changedlines := h.changedlines.set i { h.changedlines[i] with applied := true } } := by
    rw [setLineApplied, List.get?_eq_getElem?, List.getElem?_eq_getElem hi]
  have hrm : (updatecounts (setLineApplied h i)).removed = (updatecounts h).removed + 1 := by
    rw [hset]
    simp only [updatecounts, countchanges]
    exact set_applied_minus_count h.changedlines i hi hap hop
  have had : (updatecounts (setLineApplied h i)).added = (updatecounts h).added := by
    rw [hset]
    simp only [updatecounts, countchanges]
    exact set_applied_plus_count h.changedlines i hi hap hop
  have hor : (setLineApplied h i).originalremoved = h.originalremoved := by
    rw [hset]
  have haf : (setLineApplied h i).after = h.after := by
    rw [hset]
  have hbe : (setLineApplied h i).before = h.before := by
    rw [hset]
  have hctx : contextLenOf (updatecounts h) =
      contextLenOf (updatecounts (setLineApplied h i)) + 1 := by
    have h1 : (updatecounts (setLineApplied h i)).originalremoved = h.originalremoved := hor
    have h2 : (updatecounts (setLineApplied h i)).after = h.after := haf
    have h3 : (updatecounts (setLineApplied h i)).before = h.before := hbe
    have h4 : (updatecounts h).originalremoved = h.originalremoved := rfl
    have h5 : (updatecounts h).after = h.after := rfl
    have h6 : (updatecounts h).before = h.before := rfl
    rw [contextLenOf, contextLenOf, h1, h2, h3, h4, h5, h6, hrm]
    split_ifs <;> push_cast <;> ring
  refine ⟨?_, hrm, hctx, ?_⟩
  · show getfromtoline (updatecounts h) ++ (updatecounts h).before.flatten ++
      ((updatecounts h).changedlines.map hunkLineBytes).flatten ++
      (updatecounts h).after.flatten = _
    have hu1 : (updatecounts h).before = h.before := rfl
    have hu2 : (updatecounts h).after = h.after := rfl
    have hu3 : (updatecounts h).changedlines = h.changedlines := rfl
    rw [hu1, hu2, hu3]
    have hsplit : h.changedlines =
        h.changedlines.take i ++ h.changedlines[i] :: h.changedlines.drop (i + 1) := by
      conv_lhs => rw [← List.take_append_drop i h.changedlines]
      rw [List.drop_eq_getElem_cons hi]
    conv_lhs => rw [hsplit]
    have hb : hunkLineBytes h.changedlines[i] = 32 :: h.changedlines[i].linetext.tail := by
      simp [hunkLineBytes, hap]
    rw [List.map_append, List.map_cons, List.flatten_append, List.flatten_cons, hb]
    simp only [List.append_assoc, List.cons_append]
  · rw [rangeNumbers, rangeNumbers]
    simp only
    rw [hctx, hrm]
    push_cast
    ring

/-- A concrete hunk for C3: a deselected deletion followed by an applied
addition. -/
def c3hunk : Hunk :=
  { fromline := 5, toline := 5, proc := [],
    before := [strB " a\n"], after := [strB " b\n"],
    changedlines := [{ linetext := strB "-x\n", applied := false },
                     { linetext := strB "+y\n", applied := true }],
    added := 1, removed := 1, originalremoved := 1,
    applied := true, partialFlag := true, folded := false }

/-- Witness for C3 at `c3hunk`, line 0. -/
theorem deselected_deletion_demoted_witness :
    (updatecounts (setLineApplied c3hunk 0)).removed = (updatecounts c3hunk).removed + 1 ∧
    (rangeNumbers (updatecounts c3hunk)).2.1 =
      (rangeNumbers (updatecounts (setLineApplied c3hunk 0))).2.1 :=
  ⟨(deselected_deletion_demoted c3hunk 0 (by decide) (by decide) (by decide)).2.1,
   (deselected_deletion_demoted c3hunk 0 (by decide) (by decide) (by decide)).2.2.2⟩

/-- The accumulated `fix_offset` in front of hunk `i`: the sum of
`removed - added` over the un-applied hunks preceding it. -/
def fixOffsetUpTo (hs : List Hunk) (i : Nat) : Int :=
  (((hs.take i).filter fun h => !h.applied).map fun h =>
    (h.removed : Int) - (h.added : Int)).sum

/-- The hunks the specification says the filter emits for one header: the
applied hunks, in order, each with its `toline` shifted by the
accumulated offset of the un-applied hunks before it. -/
def offsetApplied (hs : List Hunk) : List Chunk :=
  (List.range hs.length).filterMap fun i =>
    (hs.get? i).bind fun h =>
      if h.applied then some (Chunk.hk { h with toline := h.toline + fixOffsetUpTo hs i })
      else none

theorem fixOffsetUpTo_zero (hs : List Hunk) : fixOffsetUpTo hs 0 = 0 := by
  simp [fixOffsetUpTo]

theorem fixOffsetUpTo_cons_applied (h : Hunk) (hs : List Hunk) (hha : h.applied = true)
    (n : Nat) : fixOffsetUpTo (h :: hs) (n + 1) = fixOffsetUpTo hs n := by
  simp [fixOffsetUpTo, List.take_succ_cons, List.filter_cons, hha]

theorem fixOffsetUpTo_cons_unapplied (h : Hunk) (hs : List Hunk) (hha : h.applied = false)
    (n : Nat) : fixOffsetUpTo (h :: hs) (n + 1) =
      ((h.removed : Int) - (h.added : Int)) + fixOffsetUpTo hs n := by
  simp [fixOffsetUpTo, List.take_succ_cons, List.filter_cons, hha]

theorem walkHunks_eq_offset (hs : List Hunk) (fix : Int) :
    walkHunks hs fix = (List.range hs.length).filterMap fun i =>
      (hs.get? i).bind fun h =>
        if h.applied then
          some (Chunk.hk { h with toline := h.toline + (fix + fixOffsetUpTo hs i) })
        else none := by
  induction hs generalizing fix with
  | nil => simp [walkHunks]
  | cons h hs ih =>
      by_cases hha : h.applied
      · have hco : (if fix ≠ 0 then h.toline + fix else h.toline) = h.toline + fix := by
          split_ifs with hf
          · rfl
          · simp at hf
            simp [hf]
        rw [walkHunks, if_pos hha, hco, ih fix]
        rw [List.length_cons, List.range_succ_eq_map, List.filterMap_cons,
          List.filterMap_map]
        simp only [Function.comp_def, List.get?_cons_zero, List.get?_cons_succ,
          fixOffsetUpTo_zero, add_zero, fixOffsetUpTo_cons_applied h hs hha]
        simp [hha]
      · have hhb : h.applied = false := by simpa using hha
        rw [walkHunks, if_neg (by simp [hhb]),
          ih (fix + ((h.removed : Int) - (h.added : Int)))]
        rw [List.length_cons, List.range_succ_eq_map, List.filterMap_cons,
          List.filterMap_map]
        simp only [Function.comp_def, List.get?_cons_zero, List.get?_cons_succ,
          fixOffsetUpTo_cons_unapplied h hs hhb]
        simp only [← add_assoc]
        simp [hhb]

theorem walkHunks_zero_eq (hs : List Hunk) : walkHunks hs 0 = offsetApplied hs := by
  rw [walkHunks_eq_offset, offsetApplied]
  simp only [zero_add]

/-- C4. The filter emits, for each included header, its applied hunks in
order with `toline` shifted by the accumulated `fix_offset` (the sum of
`removed - added` over the preceding un-applied hunks); in particular,
for an applied header with two hunks of which the first is deselected,
the second hunk is emitted with
`toline + (first.removed - first.added)`. -/
theorem filterpatch_fixes_offsets :
    (∀ gs : List Header, filterpatch gs =
      gs.foldr (fun g acc =>
        if g.applied && (specialHdr g || binaryHdr g ||
            (g.hunks.filter fun h => h.applied).length > 0)
        then Chunk.hd g :: (offsetApplied g.hunks ++ acc) else acc) []) ∧
    (∀ (g : Header) (h1 h2 : Hunk), g.hunks = [h1, h2] → g.applied = true →
      h1.applied = false → h2.applied = true →
      filterpatch [g] = [Chunk.hd g,
        Chunk.hk { h2 with toline := h2.toline + ((h1.removed : Int) - (h1.added : Int)) }]) := by
  have hmain : ∀ gs : List Header, filterpatch gs =
      gs.foldr (fun g acc =>
        if g.applied && (specialHdr g || binaryHdr g ||
            (g.hunks.filter fun h => h.applied).length > 0)
        then Chunk.hd g :: (offsetApplied g.hunks ++ acc) else acc) [] := by
    intro gs
    cases gs with
    | nil => rfl
    | cons g gs =>
        rw [filterpatch, if_neg (by rw [streamOf_cons]; simp)]
        simp only [walkHunks_zero_eq]
  refine ⟨hmain, ?_⟩
  intro g h1 h2 hg hga h1a h2a
  rw [hmain [g], List.foldr_cons, List.foldr_nil, hg,
    if_pos (by simp [hga, h1a, h2a, List.filter_cons])]
  rw [offsetApplied]
  simp only [List.length_cons, List.length_nil, List.range_succ_eq_map, List.range_zero,
    List.map_nil, List.filterMap_cons, List.filterMap_nil, List.get?_cons_zero,
    List.get?_cons_succ, List.map_cons]
  simp [h1a, h2a, fixOffsetUpTo_cons_unapplied h1 [h2] h1a 0, fixOffsetUpTo_zero]

/-- Concrete header for the C4 witness: two hunks, the first deselected. -/
def c4hdr : Header :=
  { header := [strB "diff --git a/f b/f\n"],
    hunks := [{ fromline := 1, toline := 1, proc := [], before := [], after := [],
                changedlines := [{ linetext := strB "-x\n", applied := false }],
                added := 0, removed := 1, originalremoved := 1,
                applied := false, partialFlag := false, folded := false },
              { fromline := 8, toline := 8, proc := [], before := [], after := [],
                changedlines := [{ linetext := strB "+y\n", applied := true }],
                added := 1, removed := 0, originalremoved := 0,
                applied := true, partialFlag := false, folded := false }],
    applied := true, partialFlag := true, folded := false }

/-- Witness for C4 at `c4hdr`: the second hunk's emitted `toline` is
`8 + (1 - 0) = 9`. -/
theorem filterpatch_fixes_offsets_witness :
    filterpatch [c4hdr] = [Chunk.hd c4hdr,
      Chunk.hk { (c4hdr.hunks.get ⟨1, by decide⟩) with
        toline := (c4hdr.hunks.get ⟨1, by decide⟩).toline +
          (((c4hdr.hunks.get ⟨0, by decide⟩).removed : Int) -
            ((c4hdr.hunks.get ⟨0, by decide⟩).added : Int)) }] :=
  filterpatch_fixes_offsets.2 c4hdr (c4hdr.hunks.get ⟨0, by decide⟩)
    (c4hdr.hunks.get ⟨1, by decide⟩) (by decide) (by decide) (by decide) (by decide)

theorem folded_false_of_unfolded (p : PatchS) (hu : allUnfolded p = true) (a : Addr) :
    foldedA p a = false := by
  cases a with
  | hdr i =>
      cases hp : p[i]? with
      | none => simp [foldedA, hp]
      | some h =>
          have h1 := (List.all_eq_true.mp hu) h (List.getElem?_mem hp)
          simp only [Bool.and_eq_true, Bool.not_eq_true'] at h1
          simp [foldedA, hp, h1.1]
  | hnk i j =>
      cases hp : p[i]? with
      | none => simp [foldedA, hp]
      | some h =>
          cases hq : h.hunks[j]? with
          | none => simp [foldedA, hp, hq]
          | some k =>
              have h1 := (List.all_eq_true.mp hu) h (List.getElem?_mem hp)
              simp only [Bool.and_eq_true, Bool.not_eq_true'] at h1
              have h2 := (List.all_eq_true.mp h1.2) k (List.getElem?_mem hq)
              simp only [Bool.not_eq_true'] at h2
              simp [foldedA, hp, hq, h2]
  | lin i j k => rfl

theorem validA_hnk_elim (p : PatchS) (i j : Nat) (hv : validA p (.hnk i j) = true) :
    ∃ h, p[i]? = some h ∧ j < h.hunks.length := by
  rw [validA] at hv
  cases hp : p[i]? with
  | none => simp [hp] at hv
  | some h =>
      simp only [hp] at hv
      exact ⟨h, rfl, by simpa using hv⟩

theorem validA_lin_elim (p : PatchS) (i j k : Nat) (hv : validA p (.lin i j k) = true) :
    ∃ h hk, p[i]? = some h ∧ h.hunks[j]? = some hk ∧ k < hk.lines := by
  rw [validA] at hv
  cases hp : p[i]? with
  | none => simp [hp] at hv
  | some h =>
      simp only [hp] at hv
      cases hq : h.hunks[j]? with
      | none => simp [hq] at hv
      | some hk =>
          simp only [hq] at hv
          exact ⟨h, hk, rfl, hq, by simpa using hv⟩

theorem nextitem_unfolded (p : PatchS) (a : Addr) :
    nextitemA p false a =
      match firstchildA p a with
      | some c => some c
      | none =>
          match nextsibA p a with
          | some s => some s
          | none =>
              match parentA a with
              | some par =>
                  match nextsibA p par with
                  | some s => some s
                  | none =>
                      match parentA par with
                      | some gp => nextsibA p gp
                      | none => none
              | none => none := by
  simp [nextitemA]

theorem nextitem_previtem (p : PatchS) (hu : allUnfolded p = true) (a b : Addr)
    (hv : validA p a = true) (hn : nextitemA p false a = some b) :
    previtemA p b = some a := by
  have hf := folded_false_of_unfolded p hu
  cases a with
  | hdr i =>
      have hi : i < p.length := by simpa [validA] using hv
      have hp : p[i]? = some p[i] := by simp [List.getElem?_eq_getElem, hi]
      by_cases hh0 : 0 < (p[i]).hunks.length
      · have hval : nextitemA p false (.hdr i) = some (.hnk i 0) := by
          rw [nextitem_unfolded]
          simp [firstchildA, hp, hh0]
        rw [hval] at hn
        obtain rfl : Addr.hnk i 0 = b := by simpa using hn
        simp [previtemA, prevsibA, parentA]
      · by_cases hnx : i + 1 < p.length
        · have hval : nextitemA p false (.hdr i) = some (.hdr (i + 1)) := by
            rw [nextitem_unfolded]
            simp [firstchildA, nextsibA, hp, hh0, hnx]
          rw [hval] at hn
          obtain rfl : Addr.hdr (i + 1) = b := by simpa using hn
          simp [previtemA, prevsibA, lastchildA, hp, hh0]
        · have hval : nextitemA p false (.hdr i) = none := by
            rw [nextitem_unfolded]
            simp [firstchildA, nextsibA, parentA, hp, hh0, hnx]
          rw [hval] at hn
          exact absurd hn (by simp)
  | hnk i j =>
      obtain ⟨h, hp, hj⟩ := validA_hnk_elim p i j hv
      have hq : h.hunks[j]? = some (h.hunks[j]) := by
        simp [List.getElem?_eq_getElem, hj]
      by_cases hl0 : 0 < (h.hunks[j]).lines
      · have hval : nextitemA p false (.hnk i j) = some (.lin i j 0) := by
          rw [nextitem_unfolded]
          simp [firstchildA, hp, hq, hl0]
        rw [hval] at hn
        obtain rfl : Addr.lin i j 0 = b := by simpa using hn
        simp [previtemA, prevsibA, parentA]
      · by_cases hj1 : j + 1 < h.hunks.length
        · have hval : nextitemA p false (.hnk i j) = some (.hnk i (j + 1)) := by
            rw [nextitem_unfolded]
            simp [firstchildA, nextsibA, hp, hq, hl0, hj1]
          rw [hval] at hn
          obtain rfl : Addr.hnk i (j + 1) = b := by simpa using hn
          simp [previtemA, prevsibA, lastchildA, hp, hq, hl0]
        · by_cases hnx : i + 1 < p.length
          · have hval : nextitemA p false (.hnk i j) = some (.hdr (i + 1)) := by
              rw [nextitem_unfolded]
              simp [firstchildA, nextsibA, parentA, hp, hq, hl0, hj1, hnx]
            rw [hval] at hn
            obtain rfl : Addr.hdr (i + 1) = b := by simpa using hn
            have hj2 : h.hunks.length - 1 = j := by omega
            have hh0 : 0 < h.hunks.length := by omega
            simp [previtemA, prevsibA, lastchildA, hp, hq, hj2, hh0, hl0, hf]
          · have hval : nextitemA p false (.hnk i j) = none := by
              rw [nextitem_unfolded]
              simp [firstchildA, nextsibA, parentA, hp, hq, hl0, hj1, hnx]
            rw [hval] at hn
            exact absurd hn (by simp)
  | lin i j k =>
      obtain ⟨h, hk, hp, hq, hkk⟩ := validA_lin_elim p i j k hv
      have hj : j < h.hunks.length := by
        rcases List.getElem?_eq_some.mp hq with ⟨hlt, -⟩
        exact hlt
      by_cases hk1 : k + 1 < hk.lines
      · have hval : nextitemA p false (.lin i j k) = some (.lin i j (k + 1)) := by
          rw [nextitem_unfolded]
          simp [firstchildA, nextsibA, hp, hq, hk1]
        rw [hval] at hn
        obtain rfl : Addr.lin i j (k + 1) = b := by simpa using hn
        simp [previtemA, prevsibA, lastchildA]
      · by_cases hj1 : j + 1 < h.hunks.length
        · have hval : nextitemA p false (.lin i j k) = some (.hnk i (j + 1)) := by
            rw [nextitem_unfolded]
            simp [firstchildA, nextsibA, parentA, hp, hq, hk1, hj1]
          rw [hval] at hn
          obtain rfl : Addr.hnk i (j + 1) = b := by simpa using hn
          have hkl : hk.lines - 1 = k := by omega
          have hl0 : 0 < hk.lines := by omega
          simp [previtemA, prevsibA, lastchildA, hp, hq, hl0, hkl, hf]
        · by_cases hnx : i + 1 < p.length
          · have hval : nextitemA p false (.lin i j k) = some (.hdr (i + 1)) := by
              rw [nextitem_unfolded]
              simp [firstchildA, nextsibA, parentA, hp, hq, hk1, hj1, hnx]
            rw [hval] at hn
            obtain rfl : Addr.hdr (i + 1) = b := by simpa using hn
            have hj2 : h.hunks.length - 1 = j := by omega
            have hh0 : 0 < h.hunks.length := by omega
            have hkl : hk.lines - 1 = k := by omega
            have hl0 : 0 < hk.lines := by omega
            simp [previtemA, prevsibA, lastchildA, hp, hq, hj2, hh0, hkl, hl0, hf]
          · have hval : nextitemA p false (.lin i j k) = none := by
              rw [nextitem_unfolded]
              simp [firstchildA, nextsibA, parentA, hp, hq, hk1, hj1, hnx]
            rw [hval] at hn
            exact absurd hn (by simp)

theorem previtem_nextitem (p : PatchS) (hu : allUnfolded p = true) (a b : Addr)
    (hv : validA p a = true) (hn : previtemA p a = some b) :
    nextitemA p false b = some a := by
  have hf := folded_false_of_unfolded p hu
  cases a with
  | hdr i =>
      have hi : i < p.length := by simpa [validA] using hv
      by_cases h0 : 0 < i
      · have hi' : i - 1 < p.length := by omega
        have hp' : p[i - 1]? = some p[i - 1] := by simp [List.getElem?_eq_getElem, hi']
        have hii : i - 1 + 1 = i := by omega
        by_cases hh0 : 0 < p[i - 1].hunks.length
        · have hm : p[i - 1].hunks.length - 1 < p[i - 1].hunks.length := by omega
          have hq' : p[i - 1].hunks[p[i - 1].hunks.length - 1]? =
              some (p[i - 1].hunks[p[i - 1].hunks.length - 1]) := by
            simp [List.getElem?_eq_getElem, hm]
          by_cases hl0 : 0 < (p[i - 1].hunks[p[i - 1].hunks.length - 1]).lines
          · have hval : previtemA p (.hdr i) = some (.lin (i - 1)
                (p[i - 1].hunks.length - 1)
                ((p[i - 1].hunks[p[i - 1].hunks.length - 1]).lines - 1)) := by
              simp [previtemA, prevsibA, lastchildA, h0, hp', hq', hh0, hl0, hf]
            rw [hval] at hn
            obtain rfl : Addr.lin (i - 1) (p[i - 1].hunks.length - 1)
                ((p[i - 1].hunks[p[i - 1].hunks.length - 1]).lines - 1) = b := by
              simpa using hn
            rw [nextitem_unfolded]
            have e1 : (p[i - 1].hunks[p[i - 1].hunks.length - 1]).lines - 1 + 1 =
                (p[i - 1].hunks[p[i - 1].hunks.length - 1]).lines := by omega
            have e2 : p[i - 1].hunks.length - 1 + 1 = p[i - 1].hunks.length := by omega
            simp [firstchildA, nextsibA, parentA, hp', hq', e1, e2, hii, hi]
          · have hval : previtemA p (.hdr i) =
                some (.hnk (i - 1) (p[i - 1].hunks.length - 1)) := by
              simp [previtemA, prevsibA, lastchildA, h0, hp', hq', hh0, hl0, hf]
            rw [hval] at hn
            obtain rfl : Addr.hnk (i - 1) (p[i - 1].hunks.length - 1) = b := by
              simpa using hn
            rw [nextitem_unfolded]
            have e2 : p[i - 1].hunks.length - 1 + 1 = p[i - 1].hunks.length := by omega
            simp [firstchildA, nextsibA, parentA, hp', hq', hl0, e2, hii, hi]
        · have hval : previtemA p (.hdr i) = some (.hdr (i - 1)) := by
            simp [previtemA, prevsibA, lastchildA, h0, hp', hh0]
          rw [hval] at hn
          obtain rfl : Addr.hdr (i - 1) = b := by simpa using hn
          rw [nextitem_unfolded]
          simp [firstchildA, nextsibA, hp', hh0, hii, hi]
      · have hval : previtemA p (.hdr i) = none := by
          simp [previtemA, prevsibA, parentA, h0]
        rw [hval] at hn
        exact absurd hn (by simp)
  | hnk i j =>
      obtain ⟨h, hp, hj⟩ := validA_hnk_elim p i j hv
      by_cases h0 : 0 < j
      · have hj' : j - 1 < h.hunks.length := by omega
        have hq' : h.hunks[j - 1]? = some h.hunks[j - 1] := by
          simp [List.getElem?_eq_getElem, hj']
        have hjj : j - 1 + 1 = j := by omega
        by_cases hl0 : 0 < h.hunks[j - 1].lines
        · have hval : previtemA p (.hnk i j) =
              some (.lin i (j - 1) (h.hunks[j - 1].lines - 1)) := by
            simp [previtemA, prevsibA, lastchildA, h0, hp, hq', hl0, hf]
          rw [hval] at hn
          obtain rfl : Addr.lin i (j - 1) (h.hunks[j - 1].lines - 1) = b := by simpa using hn
          rw [nextitem_unfolded]
          have e1 : h.hunks[j - 1].lines - 1 + 1 = h.hunks[j - 1].lines := by omega
          simp [firstchildA, nextsibA, parentA, hp, hq', e1, hjj, hj]
        · have hval : previtemA p (.hnk i j) = some (.hnk i (j - 1)) := by
            simp [previtemA, prevsibA, lastchildA, h0, hp, hq', hl0]
          rw [hval] at hn
          obtain rfl : Addr.hnk i (j - 1) = b := by simpa using hn
          rw [nextitem_unfolded]
          simp [firstchildA, nextsibA, hp, hq', hl0, hjj, hj]
      · have hj0 : j = 0 := by omega
        subst hj0
        have hval : previtemA p (.hnk i 0) = some (.hdr i) := by
          simp [previtemA, prevsibA, parentA]
        rw [hval] at hn
        obtain rfl : Addr.hdr i = b := by simpa using hn
        rw [nextitem_unfolded]
        have hh0 : 0 < h.hunks.length := by omega
        simp [firstchildA, hp, hh0]
  | lin i j k =>
      obtain ⟨h, hk, hp, hq, hkk⟩ := validA_lin_elim p i j k hv
      by_cases h0 : 0 < k
      · have hval : previtemA p (.lin i j k) = some (.lin i j (k - 1)) := by
          simp [previtemA, prevsibA, lastchildA, h0]
        rw [hval] at hn
        obtain rfl : Addr.lin i j (k - 1) = b := by simpa using hn
        rw [nextitem_unfolded]
        have e1 : k - 1 + 1 = k := by omega
        simp [firstchildA, nextsibA, hp, hq, e1, hkk]
      · have hk0 : k = 0 := by omega
        subst hk0
        have hval : previtemA p (.lin i j 0) = some (.hnk i j) := by
          simp [previtemA, prevsibA, parentA]
        rw [hval] at hn
        obtain rfl : Addr.hnk i j = b := by simpa using hn
        rw [nextitem_unfolded]
        have hl0 : 0 < hk.lines := by omega
        simp [firstchildA, hp, hq, hl0]

/-- C10. On a patch tree with every fold flag false, `nextitem` (with
`skipfolded = false`) and `previtem` are mutually inverse document-order
traversals. -/
theorem nextitem_previtem_inverse (p : PatchS) (hu : allUnfolded p = true) (a b : Addr)
    (hv : validA p a = true) :
    (nextitemA p false a = some b → previtemA p b = some a) ∧
    (previtemA p a = some b → nextitemA p false b = some a) :=
  ⟨nextitem_previtem p hu a b hv, previtem_nextitem p hu a b hv⟩

/-- A two-header shape: the first header has one hunk with two lines, the
second has no hunks. -/
def c10patch : PatchS := [⟨false, [⟨false, 2⟩]⟩, ⟨false, []⟩]

/-- Witness for C10: the previous item of the second header is the last
line of the first header's hunk, and its next item is that header again. -/
theorem nextitem_previtem_inverse_witness :
    nextitemA c10patch false (.lin 0 0 1) = some (.hdr 1) :=
  (nextitem_previtem_inverse c10patch (by decide) (.hdr 1) (.lin 0 0 1) (by decide)).2
    (by decide)

end GitCrecord
